import Mathlib

/-!
Verification development for the flutter_ocr_kit postprocessing and geometry
pipeline. The C++ sources are shallowly embedded over the rationals: every
32-bit float value of the pipeline is modelled as a rational number, tensors
become lists, and the external inference engine becomes an explicit parameter
supplying its output rows. Stateless functions of the source translate to
plain Lean functions with the same structure and filter order.
-/

namespace OcrKit

/-- Truncation of a rational toward zero, the semantics of the C++
`static_cast<int>` applied to a float value. -/
def truncQ (q : ℚ) : ℤ := if 0 ≤ q then ⌊q⌋ else ⌈q⌉

/-- Clamp a value into the interval [0, hi]: the C++ idiom
`std::max(0.0f, std::min(v, hi))` used for coordinate clamping. -/
def clamp0 (hi v : ℚ) : ℚ := max 0 (min v hi)

/-! ## Layout detection postprocessor (src/detect/doc_detector.cpp) -/

/-- The 23-entry document class table `DOC_CLASSES` of doc_detector.h. -/
def DOC_CLASSES : List String :=
  ["paragraph_title", "image", "text", "number", "abstract", "content",
   "figure_title", "formula", "table", "table_title", "reference",
   "doc_title", "footnote", "header", "algorithm", "footer", "seal",
   "chart_title", "chart", "formula_number", "header_image", "footer_image",
   "aside_text"]

/-- One raw row of the layout model output tensor of shape [N,6]:
`(class_id, score, x1, y1, x2, y2)`, all 32-bit floats in the source. -/
structure LayoutRow where
  classId : ℚ
  score : ℚ
  x1 : ℚ
  y1 : ℚ
  x2 : ℚ
  y2 : ℚ
deriving DecidableEq

/-- `DetectionBox` of doc_detector.h. -/
structure DetectionBox where
  x1 : ℚ
  y1 : ℚ
  x2 : ℚ
  y2 : ℚ
  score : ℚ
  class_id : ℤ
  class_name : String
deriving DecidableEq

/-- The inverse-scaled but not yet clamped coordinates of one row
(doc_detector.cpp lines 195-211): the M variant (`isL = false`) multiplies by
`1/scale`, the L variant uses inverse scale 1. -/
def layoutRawCoords (isL : Bool) (sx sy : ℚ) (r : LayoutRow) : ℚ × ℚ × ℚ × ℚ :=
  let ix : ℚ := if isL then 1 else 1 / sx
  let iy : ℚ := if isL then 1 else 1 / sy
  (r.x1 * ix, r.y1 * iy, r.x2 * ix, r.y2 * iy)

/-- Processing of one raw output row (doc_detector.cpp lines 198-224): keep
the row only if `score >= conf_threshold` and the truncated class id is a
valid index into `DOC_CLASSES`; inverse-scale, then clamp every coordinate
into [0, width] and [0, height] of the original image. -/
def detectRow (isL : Bool) (sx sy w h thr : ℚ) (r : LayoutRow) :
    Option DetectionBox :=
  let cid := truncQ r.classId
  if thr ≤ r.score ∧ 0 ≤ cid ∧ cid < (DOC_CLASSES.length : ℤ) then
    let raw := layoutRawCoords isL sx sy r
    some { x1 := clamp0 w raw.1
           y1 := clamp0 h raw.2.1
           x2 := clamp0 w raw.2.2.1
           y2 := clamp0 h raw.2.2.2
           score := r.score
           class_id := cid
           class_name := DOC_CLASSES.getD cid.toNat "" }
  else
    none

/-- The row loop of `detectDocLayout` (doc_detector.cpp lines 198-224), with
the raw output rows of the external inference engine passed in explicitly.
Rows failing the score or class filter are dropped silently and the original
relative order is preserved. -/
def detectDocLayoutRows (isL : Bool) (sx sy w h thr : ℚ)
    (rows : List LayoutRow) : List DetectionBox :=
  rows.filterMap (detectRow isL sx sy w h thr)

/-- Full `detectDocLayout` (doc_detector.cpp lines 80-235) on an image of
size `w × h`: the empty-image guard of line 85 returns an empty result, and
otherwise the rows produced by the external inference engine are
postprocessed with the scale factors of `preprocessImage` (utils.cpp), which
resizes to 640 x 640. -/
def detectDocLayout (w h : ℕ) (isL : Bool) (rows : List LayoutRow)
    (thr : ℚ) : List DetectionBox :=
  if w = 0 ∨ h = 0 then []
  else detectDocLayoutRows isL (640 / (w : ℚ)) (640 / (h : ℚ)) w h thr rows

/-! ## DB probability map postprocessor (src/ocr/ocr_engine.cpp, DBPostProcess)

The probability map is the flat float buffer `output_data` of size
`height * width`, embedded as a function from the column and row index to the
rational value at that position (positions outside the grid read 0 and are
never used in bounds). The model below embeds DBPostProcess on the map after
the optional activation step: the sigmoid branch of lines 288-295, taken
exactly when `needSigmoid` holds, is a transcendental in-place transform and
is kept out of the rational embedding; the theorems below either hypothesise
map values in [0,1] (where the branch is provably not taken) or hold
uniformly in the post-activation map. -/

/-- All values of the `w × h` probability map in row-major scan order. -/
def gridVals (m : ℕ → ℕ → ℚ) (w h : ℕ) : List ℚ :=
  (List.range h).flatMap fun y => (List.range w).map fun x => m x y

/-- The activation heuristic of DBPostProcess line 288: the map is treated
as logits, and sigmoid applied in place, iff its minimum is below -0.1 or its
maximum is above 1.1. -/
def needSigmoid (m : ℕ → ℕ → ℚ) (w h : ℕ) : Bool :=
  decide ((gridVals m w h).foldr min 0 < -(1/10) ∨
    (11/10 : ℚ) < (gridVals m w h).foldr max 0)

/-- Foreground pixels of the binarized map (lines 297-300): `cv::threshold`
with THRESH_BINARY keeps a pixel iff its value is strictly greater than the
binarization threshold. Pixels are listed in row-major scan order. -/
def fgPixels (m : ℕ → ℕ → ℚ) (thr : ℚ) (w h : ℕ) : List (ℕ × ℕ) :=
  (List.range h).flatMap fun y =>
    (List.range w).filterMap fun x =>
      if thr < m x y then some (x, y) else none

/-- 8-neighbourhood adjacency of two pixels. -/
def adj8 (p q : ℕ × ℕ) : Bool :=
  decide (¬(p.1 = q.1 ∧ p.2 = q.2) ∧
    ((p.1 : ℤ) - q.1).natAbs ≤ 1 ∧ ((p.2 : ℤ) - q.2).natAbs ≤ 1)

/-- One closure pass of flood fill: move every pixel of `rest` adjacent to
the component into it, with fuel bounding the number of passes. -/
def growComp : ℕ → List (ℕ × ℕ) → List (ℕ × ℕ) →
    List (ℕ × ℕ) × List (ℕ × ℕ)
  | 0, comp, rest => (comp, rest)
  | fuel + 1, comp, rest =>
    let part := rest.partition fun q => comp.any fun p => adj8 p q
    if part.1.isEmpty then (comp, rest)
    else growComp fuel (comp ++ part.1) part.2

/-- Modelled from the spec: connected foreground regions of the mask
(spec section 4.3 step 3; the external `cv::findContours` groups foreground
pixels into 8-connected components). Fuel-bounded flood fill over the pixel
list. -/
def componentsAux : ℕ → List (ℕ × ℕ) → List (List (ℕ × ℕ))
  | 0, _ => []
  | _ + 1, [] => []
  | fuel + 1, p :: rest =>
    let grown := growComp (fuel + 1) [p] rest
    grown.1 :: componentsAux fuel grown.2

/-- 8-connected components of a pixel list. -/
def components (pixels : List (ℕ × ℕ)) : List (List (ℕ × ℕ)) :=
  componentsAux pixels.length pixels

/-- Whether an integer position is a foreground pixel of the binarized map;
positions outside the `w × h` grid are background. -/
def maskAt (m : ℕ → ℕ → ℚ) (thr : ℚ) (w h : ℕ) (x y : ℤ) : Bool :=
  decide (0 ≤ x ∧ x < (w : ℤ) ∧ 0 ≤ y ∧ y < (h : ℤ)) &&
    decide (thr < m x.toNat y.toNat)

/-- Modelled from the spec: the closed boundary curve of a connected
foreground region (spec section 4.3 steps 3-4; external `cv::findContours`).
A boundary pixel of the component is one with a 4-neighbour that is
background or outside the image. -/
def borderPoints (m : ℕ → ℕ → ℚ) (thr : ℚ) (w h : ℕ)
    (comp : List (ℕ × ℕ)) : List (ℕ × ℕ) :=
  comp.filter fun p =>
    !maskAt m thr w h ((p.1 : ℤ) - 1) p.2 ||
    !maskAt m thr w h ((p.1 : ℤ) + 1) p.2 ||
    !maskAt m thr w h p.1 ((p.2 : ℤ) - 1) ||
    !maskAt m thr w h p.1 ((p.2 : ℤ) + 1)

/-- Mean of the probability map over a pixel list (lines 327-331:
`cv::mean` under the filled contour mask), 0 for an empty list exactly as
`cv::mean` returns 0 when the mask has no pixel. -/
def meanOver (m : ℕ → ℕ → ℚ) (ps : List (ℕ × ℕ)) : ℚ :=
  if ps.isEmpty then 0
  else (ps.map fun p => m p.1 p.2).sum / (ps.length : ℚ)

/-- Modelled from the spec: the minimum-area enclosing rotated rectangle of
the contour (spec section 4.3 step 5; external `cv::minAreaRect`), realized
as the axis-aligned bounding rectangle of the point set, which coincides with
the minimum-area rectangle whenever the optimum is axis-aligned - the case
for every contour evaluated concretely in this development. Returns the four
corner points and the rectangle size. -/
def minAreaRectAA (ps : List (ℕ × ℕ)) :
    (List (ℚ × ℚ)) × ℚ × ℚ :=
  let xs := ps.map fun p => (p.1 : ℚ)
  let ys := ps.map fun p => (p.2 : ℚ)
  let x0 := xs.foldr min (xs.headD 0)
  let x1 := xs.foldr max (xs.headD 0)
  let y0 := ys.foldr min (ys.headD 0)
  let y1 := ys.foldr max (ys.headD 0)
  ([(x0, y0), (x1, y0), (x1, y1), (x0, y1)], x1 - x0, y1 - y0)

/-- `TextBox` of ocr_engine.h: four corner points plus a confidence score. -/
structure TextBox where
  points : List (ℚ × ℚ)
  score : ℚ
deriving DecidableEq

/-- Insert into a sorted list, keeping earlier elements on ties. -/
def insertSorted (le : α → α → Bool) (a : α) : List α → List α
  | [] => [a]
  | b :: l => if le a b then a :: b :: l else b :: insertSorted le a l

/-- Comparison sort modelling `std::sort`, whose order among tied elements
is unspecified; every theorem below uses it only through membership or
through tie-free inputs. -/
def sortBy (le : α → α → Bool) : List α → List α
  | [] => []
  | a :: l => insertSorted le a (sortBy le l)

/-- Canonical corner ordering of DBPostProcess lines 367-379: sort the four
points by y, then swap the top two into left-to-right order and the bottom
two into right-to-left order. -/
def orderPoints (ps : List (ℚ × ℚ)) : List (ℚ × ℚ) :=
  match sortBy (fun a b => decide (a.2 ≤ b.2)) ps with
  | [p0, p1, p2, p3] =>
    let top := if p1.1 < p0.1 then [p1, p0] else [p0, p1]
    let bot := if p2.1 < p3.1 then [p3, p2] else [p2, p3]
    top ++ bot
  | l => l

/-- The per-contour body of the DBPostProcess loop (lines 315-382): discard a
contour with fewer than 4 boundary points, fit the rectangle, discard when
the mean map value inside the region is below the box threshold, discard when
the shorter rectangle side is below 3, then scale each corner back by the
inverse scale factors, clamp into the original image bounds and order the
corners. -/
def dbCandidate (m : ℕ → ℕ → ℚ) (thr : ℚ) (w h : ℕ)
    (sx sy ow oh bthr : ℚ) (comp : List (ℕ × ℕ)) : Option TextBox :=
  let contour := borderPoints m thr w h comp
  if contour.length < 4 then none
  else
    let rect := minAreaRectAA contour
    let mean := meanOver m comp
    if mean < bthr then none
    else if min rect.2.1 rect.2.2 < 3 then none
    else
      some { points := orderPoints (rect.1.map fun p =>
               (clamp0 ow (p.1 / sx), clamp0 oh (p.2 / sy)))
             score := mean }

/-- The final reading-order comparator of DBPostProcess lines 385-392:
order by the mean y of the two top points unless the two means differ by at
most 10, in which case order by the top-left x. -/
def readingLt (a b : TextBox) : Bool :=
  let ay := ((a.points.headD (0, 0)).2 + ((a.points.getD 1 (0, 0)).2)) / 2
  let by' := ((b.points.headD (0, 0)).2 + ((b.points.getD 1 (0, 0)).2)) / 2
  if 10 < |ay - by'| then decide (ay < by')
  else decide ((a.points.headD (0, 0)).1 < (b.points.headD (0, 0)).1)

/-- `DBPostProcess` (ocr_engine.cpp lines 273-398) on the post-activation
probability map of size `w × h`: binarize, extract contours of connected
components, filter, map to original `ow × oh` coordinates and sort into
reading order. -/
def dbPostProcess (m : ℕ → ℕ → ℚ) (hgt wdt : ℕ)
    (sx sy : ℚ) (ow oh : ℚ) (thr bthr : ℚ) : List TextBox :=
  let comps := components (fgPixels m thr wdt hgt)
  let cands := comps.filterMap (dbCandidate m thr wdt hgt sx sy ow oh bthr)
  sortBy (fun a b => !readingLt b a) cands

/-! ## CTC greedy decoder (src/ocr/ocr_engine.cpp, CTCDecode)

The decoder is embedded on the per-timestep probability rows, the rows the
loop of lines 428-484 actually scans: the softmax branch of lines 433-450,
taken exactly when `needSoftmax` holds on the first row, is a transcendental
per-row transform and is kept out of the rational embedding. Every concrete
input evaluated below is a genuine probability row, for which `needSoftmax`
is proved false, so the identity branch of lines 451-455 applies. -/

/-- The activation heuristic of CTCDecode line 421, computed from the first
timestep row: softmax is required iff the row minimum is below -0.001 or the
row sum differs from 1 by more than 0.1. -/
def needSoftmax (row : List ℚ) : Bool :=
  decide (row.foldr min (row.headD 0) < -(1/1000) ∨ (1/10 : ℚ) < |row.sum - 1|)

/-- Argmax of a timestep row (lines 457-465): index and value of the first
occurrence of the maximum, scanning left to right and updating only on a
strictly greater value. An empty row yields `(0, 0)`. -/
def argmaxGo (i : ℕ) (best : ℕ × ℚ) : List ℚ → ℕ × ℚ
  | [] => best
  | v :: vs => argmaxGo (i + 1) (if best.2 < v then (i, v) else best) vs

/-- Argmax entry point seeded with index 0. -/
def argmaxP : List ℚ → ℕ × ℚ
  | [] => (0, 0)
  | v :: vs => argmaxGo 1 (0, v) vs

/-- Loop state of CTCDecode: accumulated string, accumulated score, number of
emitted characters, and the previous raw argmax index (initially -1). -/
structure CtcState where
  res : String
  total : ℚ
  count : ℕ
  prev : ℤ
deriving DecidableEq

/-- One timestep of the CTCDecode loop (lines 457-483): a blank argmax emits
nothing; a non-blank argmax equal to the previous raw argmax emits nothing; a
non-blank argmax different from the previous one emits the dictionary token
when the index is in range and is otherwise dropped; the previous index is
updated to the current argmax in every case. -/
def ctcStep (dict : List String) (st : CtcState) (row : List ℚ) : CtcState :=
  let am := argmaxP row
  let st' :=
    if am.1 = 0 then st
    else if (am.1 : ℤ) ≠ st.prev then
      if am.1 < dict.length then
        { st with res := st.res ++ dict.getD am.1 ""
                  total := st.total + am.2
                  count := st.count + 1 }
      else st
    else st
  { st' with prev := (am.1 : ℤ) }

/-- `CTCDecode` (ocr_engine.cpp lines 400-494) on the probability rows:
fold the timestep loop from the initial state and return the decoded string
with the mean emitted probability, 0 when nothing was emitted
(line 486). -/
def ctcDecodeProbs (dict : List String) (rows : List (List ℚ)) :
    String × ℚ :=
  let st := rows.foldl (ctcStep dict) ⟨"", 0, 0, -1⟩
  (st.res, if 0 < st.count then st.total / (st.count : ℚ) else 0)

/-- Modelled from the spec: the emission rule (spec section 4.5) as a pure
function of the per-timestep raw argmax indices - a token index is emitted
iff it is non-zero, differs from the immediately preceding raw argmax index,
and is a valid dictionary index. `prev` is the preceding raw argmax, -1
before the first timestep. -/
def emitIdxs (dictLen : ℕ) (prev : ℤ) : List ℕ → List ℕ
  | [] => []
  | i :: is' =>
    if i ≠ 0 ∧ (i : ℤ) ≠ prev ∧ i < dictLen then i :: emitIdxs dictLen i is'
    else emitIdxs dictLen i is'

/-- Modelled from the spec: the probabilities of the emitted tokens, in
emission order, as a function of the per-timestep `(argmax, value)` pairs. -/
def emitVals (dictLen : ℕ) (prev : ℤ) : List (ℕ × ℚ) → List ℚ
  | [] => []
  | p :: ps =>
    if p.1 ≠ 0 ∧ (p.1 : ℤ) ≠ prev ∧ p.1 < dictLen then
      p.2 :: emitVals dictLen p.1 ps
    else emitVals dictLen p.1 ps

/-- Concatenation of a token list into one string. -/
def concatTokens : List String → String
  | [] => ""
  | s :: l => s ++ concatTokens l

/-! ## Text region extraction and OCR orchestration (src/ocr/ocr_engine.cpp) -/

/-- `TextLineResult` of ocr_engine.h. -/
structure TextLineResult where
  x1 : ℚ
  y1 : ℚ
  x2 : ℚ
  y2 : ℚ
  score : ℚ
  text : String
deriving DecidableEq

/-- Minimum x over the points of a box, seeded with the first point
(lines 502-510 and 761-768 both compute min and max this way). -/
def minXs (ps : List (ℚ × ℚ)) : ℚ := (ps.map Prod.fst).foldr min (ps.headD (0, 0)).1

/-- Maximum x over the points of a box, seeded with the first point. -/
def maxXs (ps : List (ℚ × ℚ)) : ℚ := (ps.map Prod.fst).foldr max (ps.headD (0, 0)).1

/-- Minimum y over the points of a box, seeded with the first point. -/
def minYs (ps : List (ℚ × ℚ)) : ℚ := (ps.map Prod.snd).foldr min (ps.headD (0, 0)).2

/-- Maximum y over the points of a box, seeded with the first point. -/
def maxYs (ps : List (ℚ × ℚ)) : ℚ := (ps.map Prod.snd).foldr max (ps.headD (0, 0)).2

/-- The emptiness guard of `CropTextRegion` (lines 496-519) on an image of
size `w × h`: the crop is non-empty iff the box has exactly 4 points and the
integer-truncated clamped bounding box has positive extent in both axes. -/
def cropGuard (w h : ℕ) (box : TextBox) : Bool :=
  box.points.length = 4 &&
    (let x1 := truncQ (max 0 (minXs box.points))
     let y1 := truncQ (max 0 (minYs box.points))
     let x2 := truncQ (min (w : ℚ) (maxXs box.points))
     let y2 := truncQ (min (h : ℚ) (maxYs box.points))
     decide (x1 < x2 ∧ y1 < y2))

/-- The output dimensions `(cols, rows)` of the crop produced by
`CropTextRegion` lines 522-556: the edge lengths are floored at 1, truncated
to integers for `cv::warpPerspective`, and the crop is rotated 90 degrees
clockwise (its dimensions swap) when its rows exceed 1.5 times its columns.
The two edge lengths are Euclidean distances in the source and are passed in
as the (irrational in general) values `width` and `height`. -/
def cropDims (width height : ℚ) : ℕ × ℕ :=
  let w := if width < 1 then 1 else width
  let h := if height < 1 then 1 else height
  let cols := (truncQ w).toNat
  let rows := (truncQ h).toNat
  if (cols : ℚ) * (3/2) < (rows : ℚ) then (rows, cols) else (cols, rows)

/-- `CropTextRegion` (lines 496-557) reduced to its geometry: `none` models
the empty `cv::Mat` returned for a degenerate box, otherwise the crop has the
dimensions of `cropDims`. -/
def cropTextRegion (w h : ℕ) (box : TextBox) (width height : ℚ) :
    Option (ℕ × ℕ) :=
  if box.points.length ≠ 4 then none
  else if !cropGuard w h box then none
  else some (cropDims width height)

/-- The `TextLineResult` assembled for an accepted box (lines 758-777): the
axis-aligned rectangle is the min and max of the polygon points. -/
def mkLine (box : TextBox) (text : String) (score : ℚ) : TextLineResult :=
  { x1 := minXs box.points, y1 := minYs box.points
    x2 := maxXs box.points, y2 := maxYs box.points
    score := score, text := text }

/-- The per-box loop of `RecognizeText` (lines 729-780), with recognition -
preprocessing, the external recognition model and CTC decoding - abstracted
as the oracle `rec`: a box whose crop is empty, whose decoded text is empty,
or whose score is below the recognition threshold is skipped silently;
every other box contributes one `TextLineResult`. -/
def recognizeFromBoxes (w h : ℕ) (rec : TextBox → String × ℚ) (rthr : ℚ) :
    List TextBox → List TextLineResult
  | [] => []
  | b :: bs =>
    let rest := recognizeFromBoxes w h rec rthr bs
    if !cropGuard w h b then rest
    else
      let r := rec b
      if r.1 = "" then rest
      else if r.2 < rthr then rest
      else mkLine b r.1 r.2 :: rest

/-- `RecognizeText` (lines 700-791) on an image of size `w × h`: the
empty-image guard of line 708 returns an empty result; otherwise the detected
boxes - produced by the external detection inference plus `dbPostProcess`
and passed in explicitly - are recognized one by one. -/
def recognizeText (w h : ℕ) (boxes : List TextBox)
    (rec : TextBox → String × ℚ) (rthr : ℚ) : List TextLineResult :=
  if w = 0 ∨ h = 0 then []
  else recognizeFromBoxes w h rec rthr boxes

/-- The last raw argmax index after scanning an index list, starting from
`prev` (-1 before the first timestep). -/
def lastPrev (prev : ℤ) (l : List ℕ) : ℤ := l.foldl (fun _ i => (i : ℤ)) prev

/-! ## Concrete inputs used by counterexamples and witnesses -/

/-- The 4x4 probability map of the DB single-blob scenario: 0 everywhere
except the 2x2 block of value 0.95 at positions (1,1)-(2,2). -/
def mapC2 : ℕ → ℕ → ℚ := fun x y =>
  if (x = 1 ∨ x = 2) ∧ (y = 1 ∨ y = 2) then 19/20 else 0

/-- The four foreground pixels of `mapC2` at binarization threshold 0.5. -/
def blobComp : List (ℕ × ℕ) := [(1, 1), (2, 1), (1, 2), (2, 2)]

/-- A six-token dictionary whose index 5 is the token A (index 0 blank). -/
def dictA : List String := ["", "x", "y", "z", "w", "A"]

/-- A probability row whose argmax is the blank index 0. -/
def rowBlank : List ℚ := [9/10, 1/50, 1/50, 1/50, 1/50, 1/50]

/-- A probability row whose argmax is index 5 with probability 0.9. -/
def rowA : List ℚ := [1/50, 1/50, 1/50, 1/50, 1/50, 9/10]

/-- The five timesteps whose argmax sequence is [0, 5, 5, 0, 5]. -/
def rowsRepeat : List (List ℚ) := [rowBlank, rowA, rowA, rowBlank, rowA]

/-- A layout row with valid class 2 but raw score 1.5 above 1. -/
def rowScoreBig : LayoutRow := ⟨2, 3/2, 1, 1, 2, 2⟩

/-- A layout row with in-bounds coordinates whose raw x1 = 5 exceeds its
raw x2 = 3. -/
def rowXSwapped : LayoutRow := ⟨2, 9/10, 5, 1, 3, 2⟩

/-- A well-formed layout row kept at every threshold up to 0.9. -/
def rowKept : LayoutRow := ⟨2, 9/10, 1, 1, 2, 2⟩

/-- The detection box produced from `rowKept` at unit scale on a 10x10
image. -/
def boxKept : DetectionBox := ⟨1, 1, 2, 2, 9/10, 2, "text"⟩

/-- A four-point text box with integer corners inside a 10x10 image. -/
def boxCrop : TextBox := ⟨[(1, 1), (3, 1), (3, 2), (1, 2)], 9/10⟩

/-- The text line assembled from `boxCrop` with the constant recognizer. -/
def lineCrop : TextLineResult := ⟨1, 1, 3, 2, 9/10, "hi"⟩

/-- A recognition oracle returning a fixed non-empty string and score. -/
def recConst : TextBox → String × ℚ := fun _ => ("hi", 9/10)

/-! ## Helper lemmas -/

theorem mem_insertSorted {α : Type _} (le : α → α → Bool) (x a : α)
    (l : List α) : a ∈ insertSorted le x l ↔ a = x ∨ a ∈ l := by
  induction l with
  | nil => simp [insertSorted]
  | cons b t ih =>
    by_cases h : le x b
    · simp [insertSorted, h]
    · simp only [insertSorted, h, Bool.false_eq_true, if_false,
        List.mem_cons, ih]
      tauto

theorem mem_sortBy {α : Type _} (le : α → α → Bool) (a : α) (l : List α) :
    a ∈ sortBy le l ↔ a ∈ l := by
  induction l with
  | nil => simp [sortBy]
  | cons b t ih => simp [sortBy, mem_insertSorted, ih]

theorem clamp0_nonneg (hi v : ℚ) : 0 ≤ clamp0 hi v := le_max_left _ _

theorem clamp0_le_hi (hi v : ℚ) (h : 0 ≤ hi) : clamp0 hi v ≤ hi :=
  max_le h (min_le_right _ _)

theorem clamp0_mono (hi : ℚ) {v w : ℚ} (h : v ≤ w) :
    clamp0 hi v ≤ clamp0 hi w :=
  max_le_max le_rfl (min_le_min h le_rfl)

theorem foldr_min_le_seed (l : List ℚ) (s : ℚ) : l.foldr min s ≤ s := by
  induction l with
  | nil => exact le_rfl
  | cons a t ih => exact le_trans (min_le_right _ _) ih

theorem seed_le_foldr_max (l : List ℚ) (s : ℚ) : s ≤ l.foldr max s := by
  induction l with
  | nil => exact le_rfl
  | cons a t ih => exact le_trans ih (le_max_right _ _)

theorem le_foldr_min {l : List ℚ} {c : ℚ} (hl : ∀ x ∈ l, c ≤ x) {s : ℚ}
    (hs : c ≤ s) : c ≤ l.foldr min s := by
  induction l with
  | nil => exact hs
  | cons a t ih =>
    exact le_min (hl a (List.mem_cons_self a t))
      (ih fun x hx => hl x (List.mem_cons_of_mem a hx))

theorem foldr_max_le {l : List ℚ} {c : ℚ} (hl : ∀ x ∈ l, x ≤ c) {s : ℚ}
    (hs : s ≤ c) : l.foldr max s ≤ c := by
  induction l with
  | nil => exact hs
  | cons a t ih =>
    exact max_le (hl a (List.mem_cons_self a t))
      (ih fun x hx => hl x (List.mem_cons_of_mem a hx))

theorem minXs_le_maxXs (ps : List (ℚ × ℚ)) : minXs ps ≤ maxXs ps :=
  le_trans (foldr_min_le_seed _ _) (seed_le_foldr_max _ _)

theorem minYs_le_maxYs (ps : List (ℚ × ℚ)) : minYs ps ≤ maxYs ps :=
  le_trans (foldr_min_le_seed _ _) (seed_le_foldr_max _ _)

theorem headD_mem {α : Type _} {ps : List α} (h : ps ≠ []) (d : α) :
    ps.headD d ∈ ps := by
  cases ps with
  | nil => exact absurd rfl h
  | cons a t => exact List.mem_cons_self a t

theorem minXs_nonneg {ps : List (ℚ × ℚ)} (hne : ps ≠ [])
    (h : ∀ p ∈ ps, 0 ≤ p.1) : 0 ≤ minXs ps :=
  le_foldr_min (fun x hx => by
      obtain ⟨p, hp, rfl⟩ := List.mem_map.mp hx
      exact h p hp)
    (h _ (headD_mem hne (0, 0)))

theorem minYs_nonneg {ps : List (ℚ × ℚ)} (hne : ps ≠ [])
    (h : ∀ p ∈ ps, 0 ≤ p.2) : 0 ≤ minYs ps :=
  le_foldr_min (fun x hx => by
      obtain ⟨p, hp, rfl⟩ := List.mem_map.mp hx
      exact h p hp)
    (h _ (headD_mem hne (0, 0)))

theorem maxXs_le {ps : List (ℚ × ℚ)} {c : ℚ} (hne : ps ≠ [])
    (h : ∀ p ∈ ps, p.1 ≤ c) : maxXs ps ≤ c :=
  foldr_max_le (fun x hx => by
      obtain ⟨p, hp, rfl⟩ := List.mem_map.mp hx
      exact h p hp)
    (h _ (headD_mem hne (0, 0)))

theorem maxYs_le {ps : List (ℚ × ℚ)} {c : ℚ} (hne : ps ≠ [])
    (h : ∀ p ∈ ps, p.2 ≤ c) : maxYs ps ≤ c :=
  foldr_max_le (fun x hx => by
      obtain ⟨p, hp, rfl⟩ := List.mem_map.mp hx
      exact h p hp)
    (h _ (headD_mem hne (0, 0)))

theorem mean_mem_unit {l : List ℚ} (h : ∀ x ∈ l, 0 ≤ x ∧ x ≤ 1)
    (hne : l ≠ []) : 0 ≤ l.sum / (l.length : ℚ) ∧
      l.sum / (l.length : ℚ) ≤ 1 := by
  have hlen : (0 : ℚ) < (l.length : ℚ) := by
    exact_mod_cast List.length_pos.mpr hne
  constructor
  · exact div_nonneg (List.sum_nonneg fun x hx => (h x hx).1) hlen.le
  · rw [div_le_one hlen]
    have := List.sum_le_card_nsmul l 1 fun x hx => (h x hx).2
    simpa using this

theorem meanOver_mem_unit (m : ℕ → ℕ → ℚ) (ps : List (ℕ × ℕ))
    (h : ∀ x y, 0 ≤ m x y ∧ m x y ≤ 1) :
    0 ≤ meanOver m ps ∧ meanOver m ps ≤ 1 := by
  unfold meanOver
  by_cases hne : ps.isEmpty
  · simp [hne]
  · simp only [hne, if_false]
    have hne' : ps.map (fun p => m p.1 p.2) ≠ [] := by
      simpa [List.isEmpty_iff] using hne
    have := mean_mem_unit (l := ps.map fun p => m p.1 p.2)
      (fun x hx => by
        obtain ⟨p, _, rfl⟩ := List.mem_map.mp hx
        exact h p.1 p.2) hne'
    simpa using this

theorem argmaxGo_snd_mem (l : List ℚ) :
    ∀ (i : ℕ) (best : ℕ × ℚ),
      (argmaxGo i best l).2 = best.2 ∨ (argmaxGo i best l).2 ∈ l := by
  induction l with
  | nil => intro i best; exact Or.inl rfl
  | cons v vs ih =>
    intro i best
    have hrec : argmaxGo i best (v :: vs) =
        argmaxGo (i + 1) (if best.2 < v then (i, v) else best) vs := rfl
    rcases ih (i + 1) (if best.2 < v then (i, v) else best) with h | h
    · rw [hrec, h]
      by_cases hv : best.2 < v
      · right
        rw [if_pos hv]
        exact List.mem_cons_self v vs
      · left
        rw [if_neg hv]
    · right
      rw [hrec]
      exact List.mem_cons_of_mem v h

theorem argmaxP_snd_mem {r : List ℚ} (h : r ≠ []) : (argmaxP r).2 ∈ r := by
  cases r with
  | nil => exact absurd rfl h
  | cons v vs =>
    rcases argmaxGo_snd_mem vs 1 (0, v) with hm | hm
    · rw [argmaxP, hm]
      exact List.mem_cons_self v vs
    · rw [argmaxP]
      exact List.mem_cons_of_mem v hm

theorem mem_emitVals {dl : ℕ} {ps : List (ℕ × ℚ)} {v : ℚ} :
    ∀ {prev : ℤ}, v ∈ emitVals dl prev ps →
      ∃ p ∈ ps, p.2 = v ∧ p.1 ≠ 0 := by
  induction ps with
  | nil => intro prev h; simp [emitVals] at h
  | cons p ps ih =>
    intro prev h
    rw [emitVals] at h
    split_ifs at h with hc
    · rcases List.mem_cons.mp h with rfl | h'
      · exact ⟨p, List.mem_cons_self p ps, rfl, hc.1⟩
      · obtain ⟨q, hq, hv, hq0⟩ := ih h'
        exact ⟨q, List.mem_cons_of_mem p hq, hv, hq0⟩
    · obtain ⟨q, hq, hv, hq0⟩ := ih h
      exact ⟨q, List.mem_cons_of_mem p hq, hv, hq0⟩

theorem emitIdxs_all_zero {dl : ℕ} {l : List ℕ} (h : ∀ i ∈ l, i = 0) :
    ∀ prev, emitIdxs dl prev l = [] := by
  induction l with
  | nil => intro prev; rfl
  | cons i is ih =>
    intro prev
    have hi : i = 0 := h i (List.mem_cons_self i is)
    rw [emitIdxs, if_neg (by simp [hi])]
    exact ih (fun j hj => h j (List.mem_cons_of_mem i hj)) _

theorem emitVals_all_zero {dl : ℕ} {ps : List (ℕ × ℚ)}
    (h : ∀ p ∈ ps, p.1 = 0) : ∀ prev, emitVals dl prev ps = [] := by
  induction ps with
  | nil => intro prev; rfl
  | cons p ps ih =>
    intro prev
    have hp : p.1 = 0 := h p (List.mem_cons_self p ps)
    rw [emitVals, if_neg (by simp [hp])]
    exact ih (fun q hq => h q (List.mem_cons_of_mem p hq)) _

theorem ctc_foldl (dict : List String) (rows : List (List ℚ)) :
    ∀ st : CtcState,
      rows.foldl (ctcStep dict) st =
        { res := st.res ++ concatTokens ((emitIdxs dict.length st.prev
            (rows.map fun r => (argmaxP r).1)).map fun i => dict.getD i "")
          total := st.total +
            (emitVals dict.length st.prev (rows.map argmaxP)).sum
          count := st.count +
            (emitVals dict.length st.prev (rows.map argmaxP)).length
          prev := lastPrev st.prev (rows.map fun r => (argmaxP r).1) } := by
  induction rows with
  | nil =>
    intro st
    simp [emitIdxs, emitVals, lastPrev, concatTokens, String.append_empty]
  | cons r rows ih =>
    intro st
    rw [List.foldl_cons, ih]
    have hstep : ctcStep dict st r =
        if (argmaxP r).1 ≠ 0 ∧ ((argmaxP r).1 : ℤ) ≠ st.prev ∧
            (argmaxP r).1 < dict.length then
          { res := st.res ++ dict.getD (argmaxP r).1 ""
            total := st.total + (argmaxP r).2
            count := st.count + 1
            prev := ((argmaxP r).1 : ℤ) }
        else { st with prev := ((argmaxP r).1 : ℤ) } := by
      rw [ctcStep]
      by_cases h0 : (argmaxP r).1 = 0
      · simp [h0]
      · by_cases hp : ((argmaxP r).1 : ℤ) = st.prev
        · simp [h0, hp]
        · by_cases hd : (argmaxP r).1 < dict.length
          · simp [h0, hp, hd]
          · simp [h0, hp, hd]
    rw [hstep]
    by_cases hc : (argmaxP r).1 ≠ 0 ∧ ((argmaxP r).1 : ℤ) ≠ st.prev ∧
        (argmaxP r).1 < dict.length
    · rw [if_pos hc]
      dsimp only
      have he1 : emitIdxs dict.length st.prev
          ((r :: rows).map fun r => (argmaxP r).1) =
          (argmaxP r).1 :: emitIdxs dict.length ((argmaxP r).1 : ℤ)
            (rows.map fun r => (argmaxP r).1) := by
        rw [List.map_cons, emitIdxs, if_pos hc]
      have he2 : emitVals dict.length st.prev ((r :: rows).map argmaxP) =
          (argmaxP r).2 :: emitVals dict.length ((argmaxP r).1 : ℤ)
            (rows.map argmaxP) := by
        rw [List.map_cons, emitVals, if_pos hc]
      have he3 : lastPrev st.prev ((r :: rows).map fun r => (argmaxP r).1) =
          lastPrev ((argmaxP r).1 : ℤ) (rows.map fun r => (argmaxP r).1) := rfl
      rw [he1, he2, he3, CtcState.mk.injEq]
      refine ⟨?_, ?_, ?_, rfl⟩
      · rw [List.map_cons, concatTokens, String.append_assoc]
      · rw [List.sum_cons, add_assoc]
      · rw [List.length_cons]
        omega
    · rw [if_neg hc]
      dsimp only
      have he1 : emitIdxs dict.length st.prev
          ((r :: rows).map fun r => (argmaxP r).1) =
          emitIdxs dict.length ((argmaxP r).1 : ℤ)
            (rows.map fun r => (argmaxP r).1) := by
        rw [List.map_cons, emitIdxs, if_neg hc]
      have he2 : emitVals dict.length st.prev ((r :: rows).map argmaxP) =
          emitVals dict.length ((argmaxP r).1 : ℤ) (rows.map argmaxP) := by
        rw [List.map_cons, emitVals, if_neg hc]
      have he3 : lastPrev st.prev ((r :: rows).map fun r => (argmaxP r).1) =
          lastPrev ((argmaxP r).1 : ℤ) (rows.map fun r => (argmaxP r).1) := rfl
      rw [he1, he2, he3]

theorem detectRow_some {isL : Bool} {sx sy w h thr : ℚ} {r : LayoutRow}
    {b : DetectionBox} (hd : detectRow isL sx sy w h thr r = some b) :
    thr ≤ r.score ∧ b.score = r.score ∧
      b.x1 = clamp0 w (layoutRawCoords isL sx sy r).1 ∧
      b.y1 = clamp0 h (layoutRawCoords isL sx sy r).2.1 ∧
      b.x2 = clamp0 w (layoutRawCoords isL sx sy r).2.2.1 ∧
      b.y2 = clamp0 h (layoutRawCoords isL sx sy r).2.2.2 := by
  simp only [detectRow] at hd
  split_ifs at hd with hcond
  · cases hd
    exact ⟨hcond.1, rfl, rfl, rfl, rfl, rfl⟩

theorem mem_detectDocLayoutRows {isL : Bool} {sx sy w h thr : ℚ}
    {rows : List LayoutRow} {b : DetectionBox} :
    b ∈ detectDocLayoutRows isL sx sy w h thr rows ↔
      ∃ r ∈ rows, detectRow isL sx sy w h thr r = some b :=
  List.mem_filterMap

theorem mem_orderPoints {ps : List (ℚ × ℚ)} {q : ℚ × ℚ}
    (h : q ∈ orderPoints ps) : q ∈ ps := by
  have hs : ∀ x, x ∈ sortBy (fun a b : ℚ × ℚ => decide (a.2 ≤ b.2)) ps →
      x ∈ ps := fun x hx => (mem_sortBy _ x ps).mp hx
  unfold orderPoints at h
  rcases hm : sortBy (fun a b : ℚ × ℚ => decide (a.2 ≤ b.2)) ps with
    _ | ⟨p0, _ | ⟨p1, _ | ⟨p2, _ | ⟨p3, _ | ⟨p4, t⟩⟩⟩⟩⟩ <;>
    rw [hm] at h <;> first
    | (exact hs q (hm ▸ h))
    | skip
  · have hq : q = p0 ∨ q = p1 ∨ q = p2 ∨ q = p3 := by
      by_cases h1 : p1.1 < p0.1 <;> by_cases h2 : p2.1 < p3.1 <;>
        simp [h1, h2] at h <;> tauto
    have : q ∈ sortBy (fun a b : ℚ × ℚ => decide (a.2 ≤ b.2)) ps := by
      rw [hm]
      rcases hq with rfl | rfl | rfl | rfl <;> simp
    exact hs q this

theorem mem_dbPostProcess {m : ℕ → ℕ → ℚ} {hgt wdt : ℕ}
    {sx sy ow oh thr bthr : ℚ} {bx : TextBox} :
    bx ∈ dbPostProcess m hgt wdt sx sy ow oh thr bthr ↔
      ∃ comp ∈ components (fgPixels m thr wdt hgt),
        dbCandidate m thr wdt hgt sx sy ow oh bthr comp = some bx := by
  unfold dbPostProcess
  rw [mem_sortBy]
  exact List.mem_filterMap

theorem dbCandidate_some_inv {m : ℕ → ℕ → ℚ} {thr : ℚ} {w h : ℕ}
    {sx sy ow oh bthr : ℚ} {comp : List (ℕ × ℕ)} {bx : TextBox}
    (hc : dbCandidate m thr w h sx sy ow oh bthr comp = some bx) :
    bx.score = meanOver m comp ∧ bthr ≤ meanOver m comp ∧
      ∀ q ∈ bx.points, ∃ p : ℚ × ℚ,
        q = (clamp0 ow (p.1 / sx), clamp0 oh (p.2 / sy)) := by
  simp only [dbCandidate] at hc
  split_ifs at hc with h1 h2 h3
  · cases hc
    refine ⟨rfl, not_lt.mp h2, ?_⟩
    intro q hq
    have hq' := mem_orderPoints hq
    obtain ⟨p, _, rfl⟩ := List.mem_map.mp hq'
    exact ⟨p, rfl⟩

theorem mem_recognizeFromBoxes {w h : ℕ} {rec : TextBox → String × ℚ}
    {rthr : ℚ} :
    ∀ {boxes : List TextBox} {r : TextLineResult},
      r ∈ recognizeFromBoxes w h rec rthr boxes →
      ∃ b ∈ boxes, cropGuard w h b = true ∧ rec b = (r.text, r.score) ∧
        (rec b).1 ≠ "" ∧ rthr ≤ (rec b).2 ∧ r = mkLine b (rec b).1 (rec b).2
  | [], r => by intro hmem; simp [recognizeFromBoxes] at hmem
  | b :: bs, r => by
    intro hmem
    rw [recognizeFromBoxes] at hmem
    by_cases hg : cropGuard w h b
    · rw [if_neg (by simp [hg])] at hmem
      by_cases he : (rec b).1 = ""
      · rw [if_pos he] at hmem
        obtain ⟨b', hb', hrest⟩ := mem_recognizeFromBoxes hmem
        exact ⟨b', List.mem_cons_of_mem b hb', hrest⟩
      · rw [if_neg he] at hmem
        by_cases hs : (rec b).2 < rthr
        · rw [if_pos hs] at hmem
          obtain ⟨b', hb', hrest⟩ := mem_recognizeFromBoxes hmem
          exact ⟨b', List.mem_cons_of_mem b hb', hrest⟩
        · rw [if_neg hs] at hmem
          rcases List.mem_cons.mp hmem with rfl | hmem'
          · refine ⟨b, List.mem_cons_self b bs, hg, ?_, he, not_lt.mp hs, rfl⟩
            simp [mkLine]
          · obtain ⟨b', hb', hrest⟩ := mem_recognizeFromBoxes hmem'
            exact ⟨b', List.mem_cons_of_mem b hb', hrest⟩
    · rw [if_pos (by simp [hg])] at hmem
      obtain ⟨b', hb', hrest⟩ := mem_recognizeFromBoxes hmem
      exact ⟨b', List.mem_cons_of_mem b hb', hrest⟩

/-! ## Concrete evaluations shared by counterexamples and witnesses -/

set_option maxHeartbeats 2000000 in
theorem fgPixels_mapC2 : fgPixels mapC2 (1/2) 4 4 = blobComp := by
  norm_num [fgPixels, mapC2, blobComp, List.range_succ, List.filterMap_cons,
    List.filterMap_append, List.flatMap_cons]

set_option maxHeartbeats 2000000 in
theorem components_blob : components blobComp = [blobComp] := by
  norm_num [components, blobComp, componentsAux, growComp, adj8,
    List.partition_eq_filter_filter, List.filter_cons]

set_option maxHeartbeats 2000000 in
theorem borderPoints_blob :
    borderPoints mapC2 (1/2) 4 4 blobComp = blobComp := by
  norm_num [borderPoints, maskAt, mapC2, blobComp, List.filter_cons]

set_option maxHeartbeats 2000000 in
theorem rect_blob :
    minAreaRectAA (borderPoints mapC2 (1/2) 4 4 blobComp) =
      ([(1, 1), (2, 1), (2, 2), (1, 2)], 1, 1) := by
  rw [borderPoints_blob]
  norm_num [minAreaRectAA, blobComp, min_def, max_def]

set_option maxHeartbeats 2000000 in
theorem meanOver_blob : meanOver mapC2 blobComp = 19/20 := by
  norm_num [meanOver, mapC2, blobComp]

set_option maxHeartbeats 2000000 in
theorem dbCandidate_blob :
    dbCandidate mapC2 (1/2) 4 4 1 1 4 4 (1/2) blobComp = none := by
  have hlen : (borderPoints mapC2 (1/2) 4 4 blobComp).length = 4 := by
    rw [borderPoints_blob]; rfl
  simp only [dbCandidate, hlen, rect_blob, meanOver_blob]
  norm_num

theorem dbPostProcess_mapC2 :
    dbPostProcess mapC2 4 4 1 1 4 4 (1/2) (1/2) = [] := by
  simp only [dbPostProcess, fgPixels_mapC2, components_blob,
    List.filterMap_cons, dbCandidate_blob, List.filterMap_nil]
  rfl

/-! ## Claims -/

set_option maxHeartbeats 2000000 in
/-- C1, counterexample: the layout postprocessor emits the raw row score
unclamped, so a row with score 1.5 above the 0.5 threshold produces a
Detection whose score 1.5 is not in [0,1], refuting the claim that every
produced score lies in [0,1] for all input tensors. -/
theorem layout_score_above_one :
    (detectDocLayoutRows false 1 1 10 10 (1/2) [rowScoreBig]).map
      DetectionBox.score = [3/2] ∧ ¬ ((3/2 : ℚ) ≤ 1) := by
  constructor
  · norm_num [detectDocLayoutRows, detectRow, rowScoreBig, truncQ,
      layoutRawCoords, clamp0, List.filterMap_cons, DOC_CLASSES,
      min_def, max_def]
  · norm_num

set_option maxHeartbeats 2000000 in
/-- C3, counterexample: clamping is per coordinate and never reorders, so a
layout row with raw x1 = 5 greater than raw x2 = 3 (both inside the image)
is emitted with x1 = 5 > x2 = 3, refuting 0 <= x1 <= x2 for rows whose raw
x1 exceeds the raw x2. -/
theorem layout_box_x_unordered :
    (detectDocLayoutRows false 1 1 10 10 (1/2) [rowXSwapped]).map
      (fun b => (b.x1, b.x2)) = [(5, 3)] ∧ ¬ ((5 : ℚ) ≤ 3) := by
  constructor
  · norm_num [detectDocLayoutRows, detectRow, rowXSwapped, truncQ,
      layoutRawCoords, clamp0, List.filterMap_cons, DOC_CLASSES,
      min_def, max_def]
  · norm_num

/-- C2, counterexample: on the 4x4 map that is 0 outside a 2x2 block of
value 0.95 at (1,1)-(2,2), with binarization threshold 0.5, box threshold
0.5, unit scale factors and original size 4x4, the DB postprocessor returns
no polygon at all, refuting the claim that it returns exactly one. -/
theorem db_single_blob_empty :
    dbPostProcess mapC2 4 4 1 1 4 4 (1/2) (1/2) = [] :=
  dbPostProcess_mapC2

/-- C2, amended: on the 4x4 single-blob map the DB postprocessor returns no
polygon: the blob passes binarization (its four pixels form the single
contour) and its mean score 0.95 passes the box threshold 0.5, but the
fitted minimum-area rectangle of the 2x2 block has both sides equal to 1, so
the shorter side is below 3 and the candidate is removed by the size
filter. -/
theorem db_single_blob_size_filtered :
    dbPostProcess mapC2 4 4 1 1 4 4 (1/2) (1/2) = [] ∧
    components (fgPixels mapC2 (1/2) 4 4) = [blobComp] ∧
    meanOver mapC2 blobComp = 19/20 ∧ (1/2 : ℚ) ≤ 19/20 ∧
    (minAreaRectAA (borderPoints mapC2 (1/2) 4 4 blobComp)).2 = (1, 1) ∧
    min (1 : ℚ) 1 < 3 := by
  refine ⟨dbPostProcess_mapC2, ?_, meanOver_blob, by norm_num, ?_, by norm_num⟩
  · rw [fgPixels_mapC2, components_blob]
  · rw [rect_blob]

/-- Monotonicity of the per-row layout filter in the confidence threshold. -/
theorem detectRow_mono {isL : Bool} {sx sy w h : ℚ} {t1 t2 : ℚ}
    (h12 : t1 ≤ t2) {r : LayoutRow} {b : DetectionBox}
    (hd : detectRow isL sx sy w h t2 r = some b) :
    detectRow isL sx sy w h t1 r = some b := by
  simp only [detectRow] at hd ⊢
  split_ifs at hd with hc
  · rw [if_pos ⟨le_trans h12 hc.1, hc.2⟩]
    exact hd

/-- Monotonicity of the per-contour DB filter in the box threshold. -/
theorem dbCandidate_mono {m : ℕ → ℕ → ℚ} {thr : ℚ} {w h : ℕ}
    {sx sy ow oh : ℚ} {t1 t2 : ℚ} (h12 : t1 ≤ t2) {comp : List (ℕ × ℕ)}
    {bx : TextBox} (hc : dbCandidate m thr w h sx sy ow oh t2 comp = some bx) :
    dbCandidate m thr w h sx sy ow oh t1 comp = some bx := by
  simp only [dbCandidate] at hc ⊢
  split_ifs at hc with h1 h2 h3
  · rw [if_neg h1, if_neg (fun hlt => h2 (lt_of_lt_of_le hlt h12)),
      if_neg h3]
    exact hc

/-- C4: threshold monotonicity - for thresholds t1 <= t2, every Detection
the layout postprocessor emits at confidence threshold t2 is also emitted at
t1, and every Polygon the DB postprocessor emits at box threshold t2 is also
emitted at box threshold t1 (score filtering is monotone in the
threshold). -/
theorem threshold_monotone :
    (∀ (isL : Bool) (sx sy w h t1 t2 : ℚ) (rows : List LayoutRow)
      (b : DetectionBox), t1 ≤ t2 →
        b ∈ detectDocLayoutRows isL sx sy w h t2 rows →
        b ∈ detectDocLayoutRows isL sx sy w h t1 rows) ∧
    (∀ (m : ℕ → ℕ → ℚ) (hgt wdt : ℕ) (sx sy ow oh thr t1 t2 : ℚ)
      (bx : TextBox), t1 ≤ t2 →
        bx ∈ dbPostProcess m hgt wdt sx sy ow oh thr t2 →
        bx ∈ dbPostProcess m hgt wdt sx sy ow oh thr t1) := by
  constructor
  · intro isL sx sy w h t1 t2 rows b h12 hmem
    obtain ⟨r, hr, hd⟩ := mem_detectDocLayoutRows.mp hmem
    exact mem_detectDocLayoutRows.mpr ⟨r, hr, detectRow_mono h12 hd⟩
  · intro m hgt wdt sx sy ow oh thr t1 t2 bx h12 hmem
    obtain ⟨comp, hcm, hc⟩ := mem_dbPostProcess.mp hmem
    exact mem_dbPostProcess.mpr ⟨comp, hcm, dbCandidate_mono h12 hc⟩

/-- C7: layout M versus L scaling - the L variant applies no inverse
scaling to the raw row coordinates, the M variant divides each coordinate by
the corresponding scale factor component before clamping, and with scale
factor (2,2) the M variant produces exactly half the coordinates of the L
variant on the identical row. -/
theorem layout_M_vs_L_scaling :
    (∀ (sx sy : ℚ) (r : LayoutRow),
        layoutRawCoords true sx sy r = (r.x1, r.y1, r.x2, r.y2)) ∧
    (∀ (sx sy : ℚ) (r : LayoutRow),
        layoutRawCoords false sx sy r =
          (r.x1 / sx, r.y1 / sy, r.x2 / sx, r.y2 / sy)) ∧
    (∀ r : LayoutRow,
        layoutRawCoords false 2 2 r =
          ((layoutRawCoords true 2 2 r).1 / 2,
           (layoutRawCoords true 2 2 r).2.1 / 2,
           (layoutRawCoords true 2 2 r).2.2.1 / 2,
           (layoutRawCoords true 2 2 r).2.2.2 / 2)) := by
  refine ⟨fun sx sy r => ?_, fun sx sy r => ?_, fun r => ?_⟩ <;>
    simp [layoutRawCoords, mul_one_div, mul_one, div_eq_mul_inv]

/-- C8: orientation post-condition - every non-empty crop returned by the
text region extractor has at most 1.5 times as many rows as columns: the
90-degree clockwise rotation applied when the warped crop is more than 1.5
times taller than wide enforces the bound, and the floor-at-1 of the edge
lengths keeps the column count positive. -/
theorem crop_orientation_bound :
    ∀ (w h : ℕ) (box : TextBox) (width height : ℚ) (d : ℕ × ℕ),
      cropTextRegion w h box width height = some d →
      (d.2 : ℚ) ≤ 3/2 * (d.1 : ℚ) := by
  intro w h box width height d hc
  simp only [cropTextRegion] at hc
  split_ifs at hc
  cases hc
  simp only [cropDims]
  set cols := (truncQ (if width < 1 then 1 else width)).toNat with hcols
  set rows := (truncQ (if height < 1 then 1 else height)).toNat with hrows
  by_cases hrot : (cols : ℚ) * (3/2) < (rows : ℚ)
  · rw [if_pos hrot]
    have h0 : (0 : ℚ) ≤ (rows : ℚ) := by positivity
    nlinarith [hrot]
  · rw [if_neg hrot]
    push_neg at hrot
    linarith [hrot]

/-- C8 witness: the crop of the concrete box with edge lengths 2 and 1 is
non-empty with dimensions (2, 1), and 1 is at most 1.5 times 2. -/
theorem crop_orientation_bound_witness :
    cropTextRegion 10 10 boxCrop 2 1 = some (2, 1) ∧
      ((1 : ℕ) : ℚ) ≤ 3/2 * ((2 : ℕ) : ℚ) := by
  have hev : cropTextRegion 10 10 boxCrop 2 1 = some (2, 1) := by
    have h2 : Int.toNat 2 = 2 := rfl
    norm_num [cropTextRegion, cropGuard, boxCrop, minXs, maxXs, minYs, maxYs,
      truncQ, cropDims, min_def, max_def, h2]
  exact ⟨hev, crop_orientation_bound 10 10 boxCrop 2 1 (2, 1) hev⟩

/-- C9: degenerate inputs return an empty result rather than raising - an
empty image yields an empty layout detection result and an empty OCR result,
a polygon without exactly four points yields an empty crop, and a polygon
whose truncated clamped bounding box has non-positive extent yields an empty
crop; all the modelled functions are total. -/
theorem degenerate_inputs_return_empty :
    (∀ (w h : ℕ) (isL : Bool) (rows : List LayoutRow) (thr : ℚ),
        w = 0 ∨ h = 0 → detectDocLayout w h isL rows thr = []) ∧
    (∀ (w h : ℕ) (boxes : List TextBox) (rec : TextBox → String × ℚ)
      (rthr : ℚ), w = 0 ∨ h = 0 → recognizeText w h boxes rec rthr = []) ∧
    (∀ (w h : ℕ) (s width height : ℚ),
        cropTextRegion w h ⟨[], s⟩ width height = none) ∧
    (∀ (w h : ℕ) (box : TextBox) (width height : ℚ),
        (truncQ (min (w : ℚ) (maxXs box.points)) ≤
            truncQ (max 0 (minXs box.points)) ∨
         truncQ (min (h : ℚ) (maxYs box.points)) ≤
            truncQ (max 0 (minYs box.points))) →
        cropTextRegion w h box width height = none) := by
  refine ⟨?_, ?_, ?_, ?_⟩
  · intro w h isL rows thr hwh
    simp [detectDocLayout, hwh]
  · intro w h boxes rec rthr hwh
    simp [recognizeText, hwh]
  · intro w h s width height
    simp [cropTextRegion]
  · intro w h box width height hdeg
    simp only [cropTextRegion]
    by_cases hlen : box.points.length = 4
    · rw [if_neg (by simp [hlen])]
      have hguard : cropGuard w h box = false := by
        simp only [cropGuard, hlen, decide_eq_false_iff_not, Bool.and_eq_false_iff]
        right
        intro hc
        rcases hdeg with hdx | hdy
        · exact absurd hc.1 (not_lt.mpr hdx)
        · exact absurd hc.2 (not_lt.mpr hdy)
      rw [hguard]
      rfl
    · rw [if_pos hlen]

/-- Every value of the probability map value list is a map value. -/
theorem mem_gridVals {m : ℕ → ℕ → ℚ} {w h : ℕ} {v : ℚ}
    (hv : v ∈ gridVals m w h) : ∃ x y, v = m x y := by
  unfold gridVals at hv
  obtain ⟨y, _, hvy⟩ := List.mem_flatMap.mp hv
  obtain ⟨x, _, rfl⟩ := List.mem_map.mp hvy
  exact ⟨x, y, rfl⟩

/-- C1, amended: every produced score lies in [0,1] provided the raw model
output values lie in [0,1] - the layout postprocessor passes raw row scores
through, the DB polygon score is the mean of probability map values under
the contour (and a [0,1] map is classified as probabilities, no sigmoid),
and the CTC confidence is a mean of per-timestep probabilities; with
out-of-range raw values the unclamped scores escape [0,1]. -/
theorem scores_unit_interval_of_unit_inputs :
    (∀ (isL : Bool) (sx sy w h thr : ℚ) (rows : List LayoutRow)
      (b : DetectionBox), (∀ r ∈ rows, 0 ≤ r.score ∧ r.score ≤ 1) →
        b ∈ detectDocLayoutRows isL sx sy w h thr rows →
        0 ≤ b.score ∧ b.score ≤ 1) ∧
    (∀ (m : ℕ → ℕ → ℚ) (hgt wdt : ℕ) (sx sy ow oh thr bthr : ℚ)
      (bx : TextBox), (∀ x y, 0 ≤ m x y ∧ m x y ≤ 1) →
        bx ∈ dbPostProcess m hgt wdt sx sy ow oh thr bthr →
        0 ≤ bx.score ∧ bx.score ≤ 1) ∧
    (∀ (m : ℕ → ℕ → ℚ) (w h : ℕ), (∀ x y, 0 ≤ m x y ∧ m x y ≤ 1) →
        needSigmoid m w h = false) ∧
    (∀ (dict : List String) (rows : List (List ℚ)),
        (∀ r ∈ rows, ∀ v ∈ r, 0 ≤ v ∧ v ≤ 1) →
        0 ≤ (ctcDecodeProbs dict rows).2 ∧ (ctcDecodeProbs dict rows).2 ≤ 1) := by
  refine ⟨?_, ?_, ?_, ?_⟩
  · intro isL sx sy w h thr rows b hrows hmem
    obtain ⟨r, hr, hd⟩ := mem_detectDocLayoutRows.mp hmem
    obtain ⟨-, hsc, -⟩ := detectRow_some hd
    rw [hsc]
    exact hrows r hr
  · intro m hgt wdt sx sy ow oh thr bthr bx hm hmem
    obtain ⟨comp, -, hc⟩ := mem_dbPostProcess.mp hmem
    obtain ⟨hsc, -, -⟩ := dbCandidate_some_inv hc
    rw [hsc]
    exact meanOver_mem_unit m comp hm
  · intro m w h hm
    simp only [needSigmoid, decide_eq_false_iff_not, not_or, not_lt]
    constructor
    · calc (-(1/10) : ℚ) ≤ 0 := by norm_num
        _ ≤ (gridVals m w h).foldr min 0 :=
          le_foldr_min (fun x hx => by
            obtain ⟨a, b, rfl⟩ := mem_gridVals hx
            exact (hm a b).1) le_rfl
    · calc (gridVals m w h).foldr max 0 ≤ 1 :=
          foldr_max_le (fun x hx => by
            obtain ⟨a, b, rfl⟩ := mem_gridVals hx
            exact (hm a b).2) (by norm_num)
        _ ≤ 11/10 := by norm_num
  · intro dict rows hrows
    have hfold := ctc_foldl dict rows ⟨"", 0, 0, -1⟩
    simp only [ctcDecodeProbs, hfold, zero_add]
    set vals := emitVals dict.length (-1) (rows.map argmaxP) with hvals
    by_cases hlen : 0 < vals.length
    · rw [if_pos hlen]
      refine mean_mem_unit ?_ (by simpa using List.length_pos.mp hlen)
      intro v hv
      obtain ⟨p, hp, hpv, hp0⟩ := mem_emitVals (hvals ▸ hv)
      obtain ⟨r, hr, rfl⟩ := List.mem_map.mp hp
      have hrne : r ≠ [] := by
        intro hnil
        rw [hnil] at hp0
        exact hp0 rfl
      rw [← hpv]
      exact hrows r hr _ (argmaxP_snd_mem hrne)
    · rw [if_neg hlen]
      norm_num

/-- C3, amended: every emitted layout Detection has each coordinate clamped
into [0, width] and [0, height] and is ordered (x1 <= x2, y1 <= y2)
whenever the inverse-scaled raw row is ordered - clamping is per coordinate,
so a raw row with x1 > x2 stays unordered; every DB polygon point is clamped
into the original image bounds; and every TextLineResult rectangle, being
the min and max of its source polygon points, always satisfies x1 <= x2 and
y1 <= y2, and inherits the image bounds from the polygon points. -/
theorem bounds_invariant_amended :
    (∀ (isL : Bool) (sx sy w h thr : ℚ) (rows : List LayoutRow)
      (b : DetectionBox), 0 ≤ w → 0 ≤ h →
        b ∈ detectDocLayoutRows isL sx sy w h thr rows →
        (0 ≤ b.x1 ∧ b.x1 ≤ w) ∧ (0 ≤ b.x2 ∧ b.x2 ≤ w) ∧
        (0 ≤ b.y1 ∧ b.y1 ≤ h) ∧ (0 ≤ b.y2 ∧ b.y2 ≤ h)) ∧
    (∀ (isL : Bool) (sx sy w h thr : ℚ) (r : LayoutRow) (b : DetectionBox),
        detectRow isL sx sy w h thr r = some b →
        ((layoutRawCoords isL sx sy r).1 ≤ (layoutRawCoords isL sx sy r).2.2.1 →
          b.x1 ≤ b.x2) ∧
        ((layoutRawCoords isL sx sy r).2.1 ≤ (layoutRawCoords isL sx sy r).2.2.2 →
          b.y1 ≤ b.y2)) ∧
    (∀ (m : ℕ → ℕ → ℚ) (hgt wdt : ℕ) (sx sy ow oh thr bthr : ℚ)
      (bx : TextBox), 0 ≤ ow → 0 ≤ oh →
        bx ∈ dbPostProcess m hgt wdt sx sy ow oh thr bthr →
        ∀ q ∈ bx.points, (0 ≤ q.1 ∧ q.1 ≤ ow) ∧ (0 ≤ q.2 ∧ q.2 ≤ oh)) ∧
    (∀ (w h : ℕ) (rec : TextBox → String × ℚ) (rthr : ℚ)
      (boxes : List TextBox) (r : TextLineResult),
        r ∈ recognizeFromBoxes w h rec rthr boxes →
        r.x1 ≤ r.x2 ∧ r.y1 ≤ r.y2 ∧
        ((∀ b ∈ boxes, ∀ p ∈ b.points,
            (0 ≤ p.1 ∧ p.1 ≤ (w : ℚ)) ∧ (0 ≤ p.2 ∧ p.2 ≤ (h : ℚ))) →
          (0 ≤ r.x1 ∧ r.x2 ≤ (w : ℚ)) ∧ (0 ≤ r.y1 ∧ r.y2 ≤ (h : ℚ)))) := by
  refine ⟨?_, ?_, ?_, ?_⟩
  · intro isL sx sy w h thr rows b hw hh hmem
    obtain ⟨r, hr, hd⟩ := mem_detectDocLayoutRows.mp hmem
    obtain ⟨-, -, h1, h2, h3, h4⟩ := detectRow_some hd
    rw [h1, h2, h3, h4]
    exact ⟨⟨clamp0_nonneg _ _, clamp0_le_hi _ _ hw⟩,
      ⟨clamp0_nonneg _ _, clamp0_le_hi _ _ hw⟩,
      ⟨clamp0_nonneg _ _, clamp0_le_hi _ _ hh⟩,
      ⟨clamp0_nonneg _ _, clamp0_le_hi _ _ hh⟩⟩
  · intro isL sx sy w h thr r b hd
    obtain ⟨-, -, h1, h2, h3, h4⟩ := detectRow_some hd
    rw [h1, h2, h3, h4]
    exact ⟨fun hle => clamp0_mono w hle, fun hle => clamp0_mono h hle⟩
  · intro m hgt wdt sx sy ow oh thr bthr bx how hoh hmem q hq
    obtain ⟨comp, -, hc⟩ := mem_dbPostProcess.mp hmem
    obtain ⟨-, -, hpts⟩ := dbCandidate_some_inv hc
    obtain ⟨p, rfl⟩ := hpts q hq
    exact ⟨⟨clamp0_nonneg _ _, clamp0_le_hi _ _ how⟩,
      ⟨clamp0_nonneg _ _, clamp0_le_hi _ _ hoh⟩⟩
  · intro w h rec rthr boxes r hmem
    obtain ⟨b, hb, hguard, -, -, -, rfl⟩ := mem_recognizeFromBoxes hmem
    have hlen : b.points.length = 4 := by
      simp only [cropGuard, Bool.and_eq_true, decide_eq_true_eq] at hguard
      exact hguard.1
    have hne : b.points ≠ [] := by
      intro hnil
      rw [hnil] at hlen
      exact absurd hlen (by norm_num)
    refine ⟨minXs_le_maxXs _, minYs_le_maxYs _, fun hbd => ?_⟩
    have hbp := hbd b hb
    exact ⟨⟨minXs_nonneg hne fun p hp => ((hbp p hp).1).1,
        maxXs_le hne fun p hp => ((hbp p hp).1).2⟩,
      ⟨minYs_nonneg hne fun p hp => ((hbp p hp).2).1,
        maxYs_le hne fun p hp => ((hbp p hp).2).2⟩⟩

theorem empty_append_str (s : String) : "" ++ s = s := by
  apply String.ext
  simp [String.data_append]

/-- C5: CTC emission rule - the decoded string is exactly the concatenation
of the dictionary tokens at the timesteps whose argmax index is non-zero,
differs from the immediately preceding raw argmax index, and is a valid
dictionary index; in particular the argmax sequence [0,5,5,0,5] against the
dictionary with token 5 = A decodes to AA (the input rows are genuine
probability rows, so the softmax heuristic is off). -/
theorem ctc_emission_rule :
    (∀ (dict : List String) (rows : List (List ℚ)),
        (ctcDecodeProbs dict rows).1 =
          concatTokens ((emitIdxs dict.length (-1)
            (rows.map fun r => (argmaxP r).1)).map fun i => dict.getD i "")) ∧
    (rowsRepeat.map fun r => (argmaxP r).1) = [0, 5, 5, 0, 5] ∧
    needSoftmax (rowsRepeat.headD []) = false ∧
    ctcDecodeProbs dictA rowsRepeat = ("AA", 9/10) := by
  refine ⟨?_, ?_, ?_, ?_⟩
  · intro dict rows
    have hfold := ctc_foldl dict rows ⟨"", 0, 0, -1⟩
    simp only [ctcDecodeProbs, hfold]
    exact empty_append_str _
  · norm_num [rowsRepeat, rowBlank, rowA, argmaxP, argmaxGo]
  · norm_num [rowsRepeat, rowBlank, needSoftmax, min_def]
  · have : ctcDecodeProbs dictA rowsRepeat = ("" ++ "A" ++ "A", 9/10) := by
      norm_num [ctcDecodeProbs, ctcStep, argmaxP, argmaxGo, dictA,
        rowBlank, rowA, rowsRepeat]
    rw [this]
    rfl

/-- C6: CTC confidence - the returned confidence is the arithmetic mean of
the emitted token probabilities and 0 when nothing is emitted; in
particular an input whose argmax at every timestep is the blank index 0
decodes to the empty string with confidence 0, shown both for arbitrary
all-blank inputs and for a concrete three-timestep blank sequence. -/
theorem ctc_confidence_mean :
    (∀ (dict : List String) (rows : List (List ℚ)),
        (ctcDecodeProbs dict rows).2 =
          if emitVals dict.length (-1) (rows.map argmaxP) = [] then 0
          else (emitVals dict.length (-1) (rows.map argmaxP)).sum /
            ((emitVals dict.length (-1) (rows.map argmaxP)).length : ℚ)) ∧
    (∀ (dict : List String) (rows : List (List ℚ)),
        (∀ r ∈ rows, (argmaxP r).1 = 0) →
        ctcDecodeProbs dict rows = ("", 0)) ∧
    ctcDecodeProbs dictA [rowBlank, rowBlank, rowBlank] = ("", 0) := by
  refine ⟨?_, ?_, ?_⟩
  · intro dict rows
    have hfold := ctc_foldl dict rows ⟨"", 0, 0, -1⟩
    simp only [ctcDecodeProbs, hfold, zero_add]
    by_cases hnil : emitVals dict.length (-1) (rows.map argmaxP) = []
    · rw [if_pos hnil, if_neg (by simp [hnil])]
    · rw [if_neg hnil,
        if_pos (List.length_pos.mpr hnil)]
  · intro dict rows hblank
    have hfold := ctc_foldl dict rows ⟨"", 0, 0, -1⟩
    have hz : ∀ i ∈ rows.map fun r => (argmaxP r).1, i = 0 := by
      intro i hi
      obtain ⟨r, hr, rfl⟩ := List.mem_map.mp hi
      exact hblank r hr
    have hzp : ∀ p ∈ rows.map argmaxP, p.1 = 0 := by
      intro p hp
      obtain ⟨r, hr, rfl⟩ := List.mem_map.mp hp
      exact hblank r hr
    simp only [ctcDecodeProbs, hfold, emitIdxs_all_zero hz,
      emitVals_all_zero hzp, List.map_nil, concatTokens,
      String.append_empty, List.sum_nil, List.length_nil, zero_add]
    rfl
  · norm_num [ctcDecodeProbs, ctcStep, argmaxP, argmaxGo, dictA, rowBlank]

/-- C10: every TextLineResult returned by the RecognizeText loop has a
non-empty text, a confidence at least the recognition threshold, and a
rectangle that is the componentwise min and max of its source polygon
points (hence x1 <= x2 and y1 <= y2), and it originates from a source box
whose crop is non-empty via the recognition oracle; boxes with an empty
crop, empty decoded text or a below-threshold score contribute nothing. -/
theorem recognize_text_post :
    ∀ (w h : ℕ) (rec : TextBox → String × ℚ) (rthr : ℚ)
      (boxes : List TextBox) (r : TextLineResult),
      r ∈ recognizeFromBoxes w h rec rthr boxes →
      r.text ≠ "" ∧ rthr ≤ r.score ∧ r.x1 ≤ r.x2 ∧ r.y1 ≤ r.y2 ∧
      ∃ b ∈ boxes, cropGuard w h b = true ∧
        rec b = (r.text, r.score) ∧
        r.x1 = minXs b.points ∧ r.y1 = minYs b.points ∧
        r.x2 = maxXs b.points ∧ r.y2 = maxYs b.points := by
  intro w h rec rthr boxes r hmem
  obtain ⟨b, hb, hguard, hpair, hne, hthr, hr⟩ := mem_recognizeFromBoxes hmem
  subst hr
  refine ⟨by simpa [mkLine] using hne, by simpa [mkLine] using hthr,
    minXs_le_maxXs _, minYs_le_maxYs _, b, hb, hguard, ?_, rfl, rfl, rfl, rfl⟩
  simp [mkLine]

/-- C10 witness: the constant recognizer on the concrete box inside a 10x10
image produces exactly the expected text line. -/
theorem recognize_text_post_witness :
    lineCrop.text ≠ "" ∧ (1/2 : ℚ) ≤ lineCrop.score ∧
      lineCrop.x1 ≤ lineCrop.x2 ∧ lineCrop.y1 ≤ lineCrop.y2 ∧
      ∃ b ∈ [boxCrop], cropGuard 10 10 b = true ∧
        recConst b = (lineCrop.text, lineCrop.score) ∧
        lineCrop.x1 = minXs b.points ∧ lineCrop.y1 = minYs b.points ∧
        lineCrop.x2 = maxXs b.points ∧ lineCrop.y2 = maxYs b.points :=
  recognize_text_post 10 10 recConst (1/2) [boxCrop] lineCrop (by
    have h2 : Int.toNat 2 = 2 := rfl
    norm_num [recognizeFromBoxes, cropGuard, boxCrop, recConst, mkLine,
      minXs, maxXs, minYs, maxYs, truncQ, min_def, max_def, lineCrop, h2,
      String.ext_iff, List.cons_ne_nil])

end OcrKit
